import Mathlib

/-!
# Verification of the chunked byte-buffer (`ByteBuffer.ts`)

Shallow embedding of `src/ByteBuffer.ts`.  A buffer owns an ordered list of
byte chunks plus a head offset into the first chunk.  Bytes are modelled as
`Nat` (the byte values are only ever compared for equality, never wrapped, so
no modular arithmetic is needed).  JavaScript exceptions (the `throw` in
`pull`, the `TypeError` from indexing past the chunk array inside `_seek` /
`indexOf`, and the `RangeError` from `new Uint8Array` with a negative length
in `slice`) are modelled with `Except String`.
-/

namespace ByteBufferSpec

/-- The buffer state: `chunks` is the ordered chunk list (`this.chunks`),
`head` the offset of the first unconsumed byte within the first chunk
(`this.head`). -/
structure ByteBuffer where
  chunks : List (List Nat)
  head : Nat
deriving Repr, DecidableEq

/-- `get length()` of the source: `chunks.reduce((a, c) => a + c.length, 0) - head`.
(`Nat` subtraction; under the head invariant the subtrahend never exceeds the sum,
so this agrees with the JavaScript number.) -/
def ByteBuffer.length (b : ByteBuffer) : Nat :=
  (b.chunks.map List.length).sum - b.head

/-- The logical byte content of the buffer: everything after `head` in the
concatenation of the chunks.  This is the specification-side view; all
operations are compared against it. -/
def ByteBuffer.bytes (b : ByteBuffer) : List Nat :=
  b.chunks.flatten.drop b.head

/-- The head invariant from the spec's data model: if `head > 0` then the chunk
list is non-empty and `head < chunks[0].length`. -/
def WF (b : ByteBuffer) : Prop :=
  0 < b.head → b.chunks ≠ [] ∧ b.head < (b.chunks.headD []).length

/-- `_seek(pos, numBytes, resultArray?)` of the source, acting on the chunk
suffix from the current chunk number onward.  Arguments: the chunk suffix,
`pos.headPos`, and `numBytes`.  Returns `(k, headPos', copied)` where `k` is
how many chunks the position advanced past, `headPos'` the final offset, and
`copied` the bytes written to the result array (callers that pass no result
array simply ignore it).  `none` models the JavaScript `TypeError` raised when
the loop reads `this.chunks[pos.chunkNumber]` past the end of the chunk array. -/
def seek : List (List Nat) → Nat → Nat → Option (Nat × Nat × List Nat)
  | _, headPos, 0 => some (0, headPos, [])
  | [], _, _ + 1 => none
  | c :: cs, headPos, n + 1 =>
    let remaining := c.length - headPos
    if n + 1 < remaining then
      some (0, headPos + (n + 1), (c.drop headPos).take (n + 1))
    else
      match seek cs 0 (n + 1 - remaining) with
      | none => none
      | some (k, hp2, out) => some (k + 1, hp2, c.drop headPos ++ out)

/-- `slice(start?, end?)` of the source.  `none` arguments model omitted
parameters.  Errors: `"TypeError"` when a seek walks past the chunk array,
`"RangeError"` when `new Uint8Array(end - start)` receives a negative length. -/
def ByteBuffer.slice (b : ByteBuffer) (start0 end0 : Option Int) : Except String (List Nat) :=
  let L : Int := (b.length : Int)
  let start1 : Int := start0.getD 0
  let end1 : Int := match end0 with
    | none => L
    | some e => if e > L then L else e
  let start2 : Int := if start1 < 0 then max (start1 + L) 0 else start1
  let end2 : Int := if end1 < 0 then max (end1 + L) 0 else end1
  match seek b.chunks b.head start2.toNat with
  | none => .error "TypeError"
  | some (k, hp, _) =>
    if end2 - start2 < 0 then .error "RangeError"
    else
      match seek (b.chunks.drop k) hp (end2 - start2).toNat with
      | none => .error "TypeError"
      | some (_, _, out) => .ok out

/-- `pull(x)` of the source.  On success returns the copied bytes together with
the new buffer state (the `while (pos.chunkNumber > 0) this.chunks.shift()`
loop is the `drop k`, and `this.head = pos.headPos`). -/
def ByteBuffer.pull (b : ByteBuffer) (x : Int) : Except String (List Nat × ByteBuffer) :=
  if x < 0 then .error "ByteBuffer#pull(): length cannot be less than 0."
  else if x > (b.length : Int) then
    .error "ByteBuffer#pull(): length cannot be greater than current length of buffer."
  else
    match seek b.chunks b.head x.toNat with
    | none => .error "TypeError"
    | some (k, hp, out) => .ok (out, ⟨b.chunks.drop k, hp⟩)

/-- First index `j` with `l[j] = v`, or `none`.  Helper for `chunkIndexOf`. -/
def findFrom : List Nat → Nat → Option Nat
  | [], _ => none
  | v :: rest, w => if v = w then some 0 else (findFrom rest w).map (· + 1)

/-- Models the library call `TypedArray.prototype.indexOf(searchElement,
fromIndex)` used by `indexOf`: the first index `p ≥ i` with `c[p] = v`, or
`none` (JavaScript `-1`), including the case `i ≥ c.length`. -/
def chunkIndexOf (c : List Nat) (v i : Nat) : Option Nat :=
  (findFrom (c.drop i) v).map (i + ·)

/-- The inner `while` of `indexOf`'s verification loop: normalize
`(compareChunkNumber, posByteInCompareChunk)` so the offset is inside the
current chunk, failing (`none`, i.e. `match = false`) when the walk runs past
the last chunk.  Acts on the chunk suffix from `compareChunkNumber` onward and
returns the normalized suffix split as (current chunk, later chunks, offset). -/
def normPos : List (List Nat) → Nat → Option (List Nat × List (List Nat) × Nat)
  | [], _ => none
  | c :: cs, pos => if pos < c.length then some (c, cs, pos) else normPos cs (pos - c.length)

/-- The `for (let i = 0; ...)` byte-by-byte comparison of `indexOf`: check the
needle against the chunk suffix starting at offset `pos` of its first chunk. -/
def verifyFrom : List Nat → List (List Nat) → Nat → Bool
  | [], _, _ => true
  | v :: rest, cs, pos =>
    match normPos cs pos with
    | none => false
    | some (c, cs2, pos2) =>
      if c.getD pos2 0 = v then verifyFrom rest (c :: cs2) (pos2 + 1) else false

theorem findFrom_some {l : List Nat} {v p : Nat} (h : findFrom l v = some p) :
    p < l.length := by
  induction l generalizing p with
  | nil => simp [findFrom] at h
  | cons a rest ih =>
    rw [findFrom] at h
    split at h
    · cases h
      simp
    · rw [Option.map_eq_some'] at h
      obtain ⟨q, hq, rfl⟩ := h
      have := ih hq
      simp only [List.length_cons]
      omega

theorem chunkIndexOf_some_bounds {c : List Nat} {v i p : Nat}
    (h : chunkIndexOf c v i = some p) : i ≤ p ∧ p < c.length := by
  simp only [chunkIndexOf, Option.map_eq_some'] at h
  obtain ⟨q, hq, rfl⟩ := h
  have := findFrom_some hq
  simp only [List.length_drop] at this
  omega

/-- The main `while (true)` search loop of `indexOf`.  `bytes` is the needle,
`firstByte` its first byte, `hd` is `this.head`, `cs` the chunk suffix from
`searchChunkNumber` on, `spc` is `searchPositionInChunk`, and `acc` the total
length of the chunks before `searchChunkNumber` (so the returned logical index
is `acc + posFound - hd`, the source's `total`).  The `[]` case models the
`TypeError` from reading `this.chunks[searchChunkNumber]` out of range. -/
def searchLoop (bytes : List Nat) (firstByte hd : Nat) :
    (cs : List (List Nat)) → (spc : Nat) → (acc : Nat) → Except String Int
  | [], _, _ => .error "TypeError"
  | c :: rest, spc, acc =>
    match hfind : chunkIndexOf c firstByte spc with
    | none =>
      match rest with
      | [] => .ok (-1)
      | c2 :: rest2 => searchLoop bytes firstByte hd (c2 :: rest2) 0 (acc + c.length)
    | some posFound =>
      let m : Bool := if 1 < bytes.length then verifyFrom bytes (c :: rest) posFound else true
      if m then .ok ((acc : Int) + (posFound : Int) - (hd : Int))
      else searchLoop bytes firstByte hd (c :: rest) (posFound + 1) acc
termination_by cs spc _ => (cs.length, (cs.headD []).length + 1 - spc)
decreasing_by
  · apply Prod.Lex.left
    simp
  · have hb := chunkIndexOf_some_bounds hfind
    apply Prod.Lex.right
    simp only [List.headD_cons]
    omega

/-- `indexOf(bytes, position)` of the source. -/
def ByteBuffer.indexOf (b : ByteBuffer) (bytes : List Nat) (position : Int) :
    Except String Int :=
  if bytes.length = 0 then .ok (min position (b.length : Int))
  else if bytes.length > b.length then .ok (-1)
  else
    let firstByte := bytes.getD 0 0
    match (if position > 0 then seek b.chunks b.head position.toNat
           else some (0, b.head, [])) with
    | none => .error "TypeError"
    | some (k, hp, _) =>
      searchLoop bytes firstByte b.head (b.chunks.drop k) hp
        ((b.chunks.take k).map List.length).sum

/-- Specification-side match predicate: the needle occurs in `s` at index `i`
(the bytes at logical positions `i .. i + needle.length - 1` equal the
needle). -/
def matchAt (s needle : List Nat) (i : Nat) : Prop :=
  i + needle.length ≤ s.length ∧ (s.drop i).take needle.length = needle

instance (s needle : List Nat) (i : Nat) : Decidable (matchAt s needle i) := by
  unfold matchAt; infer_instance

/-- Fuel-driven first-match search, specification side. -/
def specFindAux (s needle : List Nat) : Nat → Nat → Option Nat
  | 0, _ => none
  | fuel + 1, i => if matchAt s needle i then some i else specFindAux s needle fuel (i + 1)

/-- The smallest index `i ≥ start` at which the needle occurs in `s`,
or `none`. -/
def specFind (s needle : List Nat) (start : Nat) : Option Nat :=
  specFindAux s needle (s.length + 1 - start) start

/-- The integer `indexOf` is specified to return: the match index, or `-1`. -/
def intResult : Option Nat → Int
  | none => -1
  | some i => (i : Int)

/-- The effective start index of `slice` after defaulting and
negative-interpretation, exactly as computed by the source's prelude. -/
def effStart (L : Nat) (start0 : Option Int) : Int :=
  let start1 := start0.getD 0
  if start1 < 0 then max (start1 + L) 0 else start1

/-- The effective end index of `slice` after defaulting, clamping to `length`,
and negative-interpretation, exactly as computed by the source's prelude. -/
def effEnd (L : Nat) (end0 : Option Int) : Int :=
  let end1 : Int := match end0 with
    | none => (L : Int)
    | some e => if e > (L : Int) then (L : Int) else e
  if end1 < 0 then max (end1 + L) 0 else end1

/-- Buffer states reachable through the public mutating interface:
construction (any initial chunk list, head 0), `append` (pushing chunks at the
tail), and successful `pull`.  `slice` and `indexOf` never mutate the state
(they are pure functions in this model, as in the source, where they only
write to local variables). -/
inductive Reachable : ByteBuffer → Prop
  | init (chunks : List (List Nat)) : Reachable ⟨chunks, 0⟩
  | append (b : ByteBuffer) (new : List (List Nat)) :
      Reachable b → Reachable ⟨b.chunks ++ new, b.head⟩
  | pull (b : ByteBuffer) (x : Int) (out : List Nat) (b2 : ByteBuffer) :
      Reachable b → b.pull x = .ok (out, b2) → Reachable b2

/-! ## Basic list helpers -/

theorem getD_drop (l : List Nat) (i j d : Nat) :
    (l.drop i).getD j d = l.getD (i + j) d := by
  simp [List.getD_eq_getElem?_getD, List.getElem?_drop]

/-- Dropping `k` whole chunks drops the sum of their lengths from the
flattening. -/
theorem flatten_drop (l : List (List Nat)) (k : Nat) :
    (l.drop k).flatten = l.flatten.drop ((l.take k).map List.length).sum := by
  induction l generalizing k with
  | nil => simp
  | cons c rest ih =>
    cases k with
    | zero => simp
    | succ k =>
      simp only [List.drop_succ_cons, List.take_succ_cons, List.map_cons, List.sum_cons,
        List.flatten_cons]
      rw [ih k, List.drop_append_eq_append_drop]
      have h1 : List.drop (c.length + ((rest.take k).map List.length).sum) c = [] := by
        rw [List.drop_eq_nil_iff]
        omega
      rw [h1, List.nil_append]
      congr 1
      omega

theorem sum_take_le (l : List (List Nat)) (k : Nat) :
    ((l.take k).map List.length).sum ≤ (l.map List.length).sum := by
  induction l generalizing k with
  | nil => simp
  | cons c rest ih =>
    cases k with
    | zero => simp
    | succ k =>
      simp only [List.take_succ_cons, List.map_cons, List.sum_cons]
      have := ih k
      omega

/-! ## Characterization of `findFrom` and `chunkIndexOf` -/

theorem findFrom_spec {l : List Nat} {v : Nat} :
    ∀ {p : Nat}, findFrom l v = some p →
      p < l.length ∧ l.getD p 0 = v ∧ ∀ j < p, l.getD j 0 ≠ v := by
  induction l with
  | nil => intro p h; simp [findFrom] at h
  | cons a rest ih =>
    intro p h
    rw [findFrom] at h
    split at h
    · cases h
      simp_all
    · rw [Option.map_eq_some'] at h
      obtain ⟨q, hq, rfl⟩ := h
      obtain ⟨h1, h2, h3⟩ := ih hq
      refine ⟨by simpa using h1, by simpa using h2, ?_⟩
      intro j hj
      cases j with
      | zero => simpa using ‹¬ a = v›
      | succ j => simpa using h3 j (by omega)

theorem findFrom_none {l : List Nat} {v : Nat} (h : findFrom l v = none) :
    ∀ j < l.length, l.getD j 0 ≠ v := by
  induction l with
  | nil => simp
  | cons a rest ih =>
    rw [findFrom] at h
    split at h
    · cases h
    · intro j hj
      cases j with
      | zero => simpa using ‹¬ a = v›
      | succ j =>
        rw [Option.map_eq_none'] at h
        simpa using ih h j (by simpa using hj)

theorem chunkIndexOf_spec {c : List Nat} {v i p : Nat}
    (h : chunkIndexOf c v i = some p) :
    i ≤ p ∧ p < c.length ∧ c.getD p 0 = v ∧
      ∀ j, i ≤ j → j < p → c.getD j 0 ≠ v := by
  simp only [chunkIndexOf, Option.map_eq_some'] at h
  obtain ⟨q, hq, rfl⟩ := h
  obtain ⟨h1, h2, h3⟩ := findFrom_spec hq
  rw [List.length_drop] at h1
  rw [getD_drop] at h2
  refine ⟨by omega, by omega, h2, ?_⟩
  intro j hij hjp
  have := h3 (j - i) (by omega)
  rw [getD_drop] at this
  have hj : i + (j - i) = j := by omega
  rwa [hj] at this

theorem chunkIndexOf_none {c : List Nat} {v i : Nat}
    (h : chunkIndexOf c v i = none) :
    ∀ j, i ≤ j → j < c.length → c.getD j 0 ≠ v := by
  simp only [chunkIndexOf, Option.map_eq_none'] at h
  intro j hij hjc
  have := findFrom_none h (j - i) (by simp; omega)
  rw [getD_drop] at this
  have hj : i + (j - i) = j := by omega
  rwa [hj] at this

/-! ## Characterization of `specFind` -/

theorem specFindAux_none {s needle : List Nat} :
    ∀ {fuel i : Nat}, (∀ j, i ≤ j → ¬ matchAt s needle j) →
      specFindAux s needle fuel i = none := by
  intro fuel
  induction fuel with
  | zero => intro i _; rfl
  | succ fuel ih =>
    intro i h
    rw [specFindAux, if_neg (h i le_rfl)]
    exact ih fun j hj => h j (by omega)

theorem specFindAux_spec {s needle : List Nat} :
    ∀ {fuel i p : Nat}, specFindAux s needle fuel i = some p →
      i ≤ p ∧ matchAt s needle p ∧ ∀ j, i ≤ j → j < p → ¬ matchAt s needle j := by
  intro fuel
  induction fuel with
  | zero => intro i p h; cases h
  | succ fuel ih =>
    intro i p h
    rw [specFindAux] at h
    split at h
    · cases h
      exact ⟨le_rfl, by assumption, fun j h1 h2 => absurd h1 (by omega)⟩
    · obtain ⟨h1, h2, h3⟩ := ih h
      refine ⟨by omega, h2, ?_⟩
      intro j hij hjp
      rcases Nat.eq_or_lt_of_le hij with rfl | hlt
      · assumption
      · exact h3 j (by omega) hjp

theorem specFind_spec {s needle : List Nat} {i p : Nat}
    (h : specFind s needle i = some p) :
    i ≤ p ∧ matchAt s needle p ∧ ∀ j, i ≤ j → j < p → ¬ matchAt s needle j :=
  specFindAux_spec h

theorem matchAt_lt_of_ne_nil {s needle : List Nat} {i : Nat}
    (hn : needle ≠ []) (h : matchAt s needle i) : i < s.length := by
  obtain ⟨h1, _⟩ := h
  have : 0 < needle.length := List.length_pos.mpr hn
  omega

theorem specFind_none {s needle : List Nat} {i : Nat}
    (h : ∀ j, i ≤ j → ¬ matchAt s needle j) : specFind s needle i = none :=
  specFindAux_none h

theorem specFind_of_match {s needle : List Nat} {i : Nat} (h : matchAt s needle i) :
    specFind s needle i = some i := by
  have hi : i ≤ s.length := by
    obtain ⟨h1, _⟩ := h
    omega
  rw [specFind]
  have : s.length + 1 - i = (s.length - i) + 1 := by omega
  rw [this, specFindAux, if_pos h]

theorem specFind_succ_of_not_match {s needle : List Nat} {i : Nat}
    (h : ¬ matchAt s needle i) : specFind s needle i = specFind s needle (i + 1) := by
  rw [specFind, specFind]
  by_cases hi : i ≤ s.length
  · have : s.length + 1 - i = (s.length + 1 - (i + 1)) + 1 := by omega
    rw [this, specFindAux, if_neg h]
  · have h1 : s.length + 1 - i = 0 := by omega
    have h2 : s.length + 1 - (i + 1) = 0 := by omega
    rw [h1, h2]
    rfl

theorem specFind_congr_of_no_match {s n : List Nat} {a b : Nat} (hab : a ≤ b)
    (h : ∀ j, a ≤ j → j < b → ¬ matchAt s n j) :
    specFind s n a = specFind s n b := by
  induction b with
  | zero =>
    have : a = 0 := by omega
    rw [this]
  | succ b ih =>
    rcases Nat.eq_or_lt_of_le hab with rfl | hlt
    · rfl
    · have := ih (by omega) (fun j h1 h2 => h j h1 (by omega))
      rw [this, specFind_succ_of_not_match (h b (by omega) (by omega))]

/-! ## Characterization of `seek`

The single point of truth for "walk N logical bytes across chunk boundaries":
on a normalized position (`hp = 0` or `hp` inside the first chunk) with enough
bytes available, `seek` succeeds, copies exactly the first `n` logical bytes,
lands on a normalized position again, and advances the global offset by
exactly `n`. -/

theorem seek_spec :
    ∀ (cs : List (List Nat)) (hp n : Nat),
      hp = 0 ∨ hp < (cs.headD []).length →
      n + hp ≤ cs.flatten.length →
      ∃ k hp2,
        seek cs hp n = some (k, hp2, (cs.flatten.drop hp).take n) ∧
        k ≤ cs.length ∧
        (hp2 = 0 ∨ hp2 < ((cs.drop k).headD []).length) ∧
        (cs.drop k).flatten.drop hp2 = (cs.flatten.drop hp).drop n ∧
        ((cs.take k).map List.length).sum + hp2 = hp + n := by
  intro cs
  induction cs with
  | nil =>
    intro hp n hwf hn
    have hhp : hp = 0 := by
      rcases hwf with h | h
      · exact h
      · simp at h
    subst hhp
    simp only [List.flatten_nil, List.length_nil, Nat.le_zero, Nat.add_eq_zero] at hn
    obtain ⟨rfl, -⟩ := hn
    exact ⟨0, 0, rfl, by simp, Or.inl rfl, by simp, by simp⟩
  | cons c cs' ih =>
    intro hp n hwf hn
    have hhp : hp ≤ c.length := by
      rcases hwf with h | h
      · omega
      · simp only [List.headD_cons] at h
        omega
    have hflat : (c :: cs').flatten.drop hp = c.drop hp ++ cs'.flatten := by
      rw [List.flatten_cons, List.drop_append_eq_append_drop]
      have : hp - c.length = 0 := by omega
      rw [this, List.drop_zero]
    cases n with
    | zero =>
      refine ⟨0, hp, rfl, by simp, ?_, by simp, by simp⟩
      simpa using hwf
    | succ m =>
      by_cases hlt : m + 1 < c.length - hp
      · refine ⟨0, hp + (m + 1), ?_, by simp, ?_, ?_, by simp⟩
        · rw [seek, if_pos hlt]
          have : ((c :: cs').flatten.drop hp).take (m + 1) = (c.drop hp).take (m + 1) := by
            rw [hflat, List.take_append_eq_append_take]
            have h0 : m + 1 - (c.drop hp).length = 0 := by
              rw [List.length_drop]
              omega
            rw [h0, List.take_zero, List.append_nil]
          rw [this]
        · right
          simp only [List.drop_zero, List.headD_cons]
          omega
        · simp only [List.drop_zero, List.drop_drop]
      · -- the current chunk is consumed entirely; recurse into the tail
        have hrec := ih 0 (m + 1 - (c.length - hp)) (Or.inl rfl) (by
          rw [List.flatten_cons, List.length_append] at hn
          omega)
        obtain ⟨k', hp2, hseek, hk, hnorm, hdrop, hsum⟩ := hrec
        refine ⟨k' + 1, hp2, ?_, by simpa using hk, by simpa using hnorm, ?_, ?_⟩
        · rw [seek, if_neg hlt, hseek]
          have hbytes : ((c :: cs').flatten.drop hp).take (m + 1)
              = c.drop hp ++ (cs'.flatten.drop 0).take (m + 1 - (c.length - hp)) := by
            rw [hflat, List.take_append_eq_append_take, List.drop_zero]
            congr 2
            · exact List.take_of_length_le (by rw [List.length_drop]; omega)
            · rw [List.length_drop]
          rw [hbytes]
        · rw [List.drop_succ_cons, hdrop, List.drop_zero, hflat,
            List.drop_append_eq_append_drop]
          have h0 : List.drop (m + 1) (c.drop hp) = [] := by
            rw [List.drop_eq_nil_iff, List.length_drop]
            omega
          rw [h0, List.nil_append, List.length_drop]
        · simp only [List.take_succ_cons, List.map_cons, List.sum_cons]
          omega

/-- Seeking `n` bytes and then `m` more from the landing position is the same
as seeking `n + m` bytes at once (same final position, concatenated copies). -/
theorem seek_add :
    ∀ (cs : List (List Nat)) (hp n m : Nat) {k1 hp1 out1 k2 hp2 out2},
      seek cs hp n = some (k1, hp1, out1) →
      seek (cs.drop k1) hp1 m = some (k2, hp2, out2) →
      seek cs hp (n + m) = some (k1 + k2, hp2, out1 ++ out2) := by
  intro cs
  induction cs with
  | nil =>
    intro hp n m k1 hp1 out1 k2 hp2 out2 h1 h2
    cases n with
    | zero =>
      rw [seek] at h1
      simp only [Option.some.injEq, Prod.mk.injEq] at h1
      obtain ⟨rfl, rfl, rfl⟩ := h1
      simp only [List.drop_zero] at h2
      cases m with
      | zero =>
        rw [seek] at h2 ⊢
        simpa using h2
      | succ t => rw [seek] at h2; cases h2
    | succ s => rw [seek] at h1; cases h1
  | cons c cs' ih =>
    intro hp n m k1 hp1 out1 k2 hp2 out2 h1 h2
    cases n with
    | zero =>
      rw [seek] at h1
      simp only [Option.some.injEq, Prod.mk.injEq] at h1
      obtain ⟨rfl, rfl, rfl⟩ := h1
      simp only [List.drop_zero] at h2
      simpa using h2
    | succ s =>
      rw [seek] at h1
      by_cases hlt : s + 1 < c.length - hp
      · rw [if_pos hlt] at h1
        simp only [Option.some.injEq, Prod.mk.injEq] at h1
        obtain ⟨rfl, rfl, rfl⟩ := h1
        simp only [List.drop_zero] at h2
        cases m with
        | zero =>
          rw [seek] at h2
          simp only [Option.some.injEq, Prod.mk.injEq] at h2
          obtain ⟨rfl, rfl, rfl⟩ := h2
          rw [seek, if_pos hlt]
          simp
        | succ t =>
          have hn : s + 1 + (t + 1) = (s + t + 1) + 1 := by omega
          rw [seek] at h2
          rw [hn, seek]
          by_cases hlt2 : t + 1 < c.length - (hp + (s + 1))
          · rw [if_pos hlt2] at h2
            simp only [Option.some.injEq, Prod.mk.injEq] at h2
            obtain ⟨rfl, rfl, rfl⟩ := h2
            rw [if_pos (by omega)]
            have e0 : (0 : Nat) + 0 = 0 := rfl
            have e1 : hp + (s + 1) + (t + 1) = hp + (s + t + 1 + 1) := by omega
            have e2 : s + t + 1 + 1 = (s + 1) + (t + 1) := by omega
            rw [e0, e1, e2, List.take_add, List.drop_drop]
          · rw [if_neg hlt2] at h2
            rw [if_neg (by omega)]
            have harg : t + 1 - (c.length - (hp + (s + 1)))
                = s + t + 1 + 1 - (c.length - hp) := by omega
            rw [harg] at h2
            cases hrec : seek cs' 0 (s + t + 1 + 1 - (c.length - hp)) with
            | none => rw [hrec] at h2; cases h2
            | some r =>
              obtain ⟨k2', hp2', out2'⟩ := r
              rw [hrec] at h2
              simp only [Option.some.injEq, Prod.mk.injEq] at h2
              obtain ⟨rfl, rfl, rfl⟩ := h2
              dsimp only
              have e1 : 0 + (k2' + 1) = k2' + 1 := by omega
              rw [e1]
              have e2 : List.take (s + 1) (List.drop hp c)
                    ++ (List.drop (hp + (s + 1)) c ++ out2')
                  = List.drop hp c ++ out2' := by
                rw [← List.append_assoc]
                have e3 : List.drop (hp + (s + 1)) c
                    = List.drop (s + 1) (List.drop hp c) := by
                  rw [List.drop_drop]
                rw [e3, List.take_append_drop]
              rw [e2]
      · rw [if_neg hlt] at h1
        cases hrec1 : seek cs' 0 (s + 1 - (c.length - hp)) with
        | none => rw [hrec1] at h1; cases h1
        | some r =>
          obtain ⟨K, hpK, O⟩ := r
          rw [hrec1] at h1
          simp only [Option.some.injEq, Prod.mk.injEq] at h1
          obtain ⟨rfl, rfl, rfl⟩ := h1
          simp only [List.drop_succ_cons] at h2
          have hcomb := ih 0 (s + 1 - (c.length - hp)) m hrec1 h2
          have hn : s + 1 + m = (s + m) + 1 := by omega
          rw [hn, seek]
          rw [if_neg (by omega)]
          have harg : s + m + 1 - (c.length - hp) = s + 1 - (c.length - hp) + m := by omega
          rw [harg, hcomb]
          have hk : K + 1 + k2 = K + k2 + 1 := by omega
          rw [hk, List.append_assoc]

/-! ## Characterization of `normPos`, `verifyFrom`, and the search loop -/

theorem normPos_none :
    ∀ (cs : List (List Nat)) (pos : Nat),
      normPos cs pos = none ↔ cs.flatten.length ≤ pos := by
  intro cs
  induction cs with
  | nil =>
    intro pos
    simp [normPos]
  | cons c cs' ih =>
    intro pos
    rw [normPos]
    by_cases hp : pos < c.length
    · rw [if_pos hp]
      simp only [List.flatten_cons, List.length_append]
      constructor
      · intro h
        cases h
      · intro h
        exact absurd hp (by omega)
    · rw [if_neg hp]
      rw [ih]
      simp only [List.flatten_cons, List.length_append]
      omega

theorem normPos_some :
    ∀ (cs : List (List Nat)) (pos : Nat) {c : List Nat} {cs2 : List (List Nat)} {pos2 : Nat},
      normPos cs pos = some (c, cs2, pos2) →
      pos2 < c.length ∧ (c :: cs2).flatten.drop pos2 = cs.flatten.drop pos := by
  intro cs
  induction cs with
  | nil =>
    intro pos c cs2 pos2 h
    cases h
  | cons c0 cs' ih =>
    intro pos c cs2 pos2 h
    rw [normPos] at h
    by_cases hp : pos < c0.length
    · rw [if_pos hp] at h
      simp only [Option.some.injEq, Prod.mk.injEq] at h
      obtain ⟨rfl, rfl, rfl⟩ := h
      exact ⟨hp, rfl⟩
    · rw [if_neg hp] at h
      obtain ⟨h1, h2⟩ := ih (pos - c0.length) h
      refine ⟨h1, ?_⟩
      rw [h2, List.flatten_cons, List.drop_append_eq_append_drop]
      have h0 : List.drop pos c0 = [] := by
        rw [List.drop_eq_nil_iff]
        omega
      rw [h0, List.nil_append]

/-- The byte-by-byte verification succeeds exactly when the needle occurs in
the flattened chunk suffix at the given offset. -/
theorem verifyFrom_spec :
    ∀ (needle : List Nat) (cs : List (List Nat)) (pos : Nat),
      verifyFrom needle cs pos = true ↔
        (cs.flatten.drop pos).take needle.length = needle := by
  intro needle
  induction needle with
  | nil =>
    intro cs pos
    simp [verifyFrom]
  | cons v rest ih =>
    intro cs pos
    rw [verifyFrom]
    cases hnp : normPos cs pos with
    | none =>
      rw [normPos_none] at hnp
      have hdrop : cs.flatten.drop pos = [] := by
        rw [List.drop_eq_nil_iff]
        exact hnp
      simp [hdrop]
    | some r =>
      obtain ⟨c, cs2, pos2⟩ := r
      obtain ⟨h1, h2⟩ := normPos_some cs pos hnp
      rw [← h2]
      have hgd : c.getD pos2 0 = c.get ⟨pos2, h1⟩ := by
        rw [List.getD_eq_getElem?_getD, List.getElem?_eq_getElem h1]
        rfl
      have hflat2 : (c :: cs2).flatten.drop pos2
          = c.getD pos2 0 :: (c :: cs2).flatten.drop (pos2 + 1) := by
        rw [List.flatten_cons, List.drop_append_eq_append_drop,
          List.drop_append_eq_append_drop]
        have e1 : pos2 - c.length = 0 := by omega
        have e2 : pos2 + 1 - c.length = 0 := by omega
        rw [e1, e2, List.drop_zero, List.drop_eq_getElem_cons h1,
          List.cons_append, hgd]
        rfl
      rw [hflat2]
      simp only [List.length_cons, List.take_succ_cons, List.cons.injEq]
      by_cases hv : c.getD pos2 0 = v
      · rw [if_pos hv, ih]
        simp only [List.flatten_cons]
        constructor
        · intro h
          exact ⟨hv, h⟩
        · rintro ⟨-, h⟩
          exact h
      · rw [if_neg hv]
        constructor
        · intro h
          cases h
        · rintro ⟨ha, -⟩
          exact absurd ha hv

theorem searchLoop_none_last {bytes : List Nat} {fb hd : Nat} {c : List Nat} {spc acc : Nat}
    (hfind : chunkIndexOf c fb spc = none) :
    searchLoop bytes fb hd [c] spc acc = .ok (-1) := by
  rw [searchLoop]
  split
  · rfl
  · next posFound heq =>
    rw [hfind] at heq
    cases heq

theorem searchLoop_none_step {bytes : List Nat} {fb hd : Nat} {c c2 : List Nat}
    {rest2 : List (List Nat)} {spc acc : Nat}
    (hfind : chunkIndexOf c fb spc = none) :
    searchLoop bytes fb hd (c :: c2 :: rest2) spc acc
      = searchLoop bytes fb hd (c2 :: rest2) 0 (acc + c.length) := by
  rw [searchLoop]
  split
  · rfl
  · next posFound heq =>
    rw [hfind] at heq
    cases heq

theorem searchLoop_found {bytes : List Nat} {fb hd : Nat} {c : List Nat}
    {rest : List (List Nat)} {spc acc posFound : Nat}
    (hfind : chunkIndexOf c fb spc = some posFound)
    (hm : (if 1 < bytes.length then verifyFrom bytes (c :: rest) posFound else true) = true) :
    searchLoop bytes fb hd (c :: rest) spc acc = .ok ((acc : Int) + posFound - hd) := by
  cases rest with
  | nil =>
    rw [searchLoop]
    split
    · next heq =>
      rw [hfind] at heq
      cases heq
    · next pf heq =>
      rw [hfind] at heq
      cases heq
      simp [hm]
  | cons c2 rest2 =>
    rw [searchLoop]
    split
    · next heq =>
      rw [hfind] at heq
      cases heq
    · next pf heq =>
      rw [hfind] at heq
      cases heq
      simp [hm]

theorem searchLoop_retry {bytes : List Nat} {fb hd : Nat} {c : List Nat}
    {rest : List (List Nat)} {spc acc posFound : Nat}
    (hfind : chunkIndexOf c fb spc = some posFound)
    (hm : (if 1 < bytes.length then verifyFrom bytes (c :: rest) posFound else true) = false) :
    searchLoop bytes fb hd (c :: rest) spc acc
      = searchLoop bytes fb hd (c :: rest) (posFound + 1) acc := by
  cases rest with
  | nil =>
    rw [searchLoop]
    split
    · next heq =>
      rw [hfind] at heq
      cases heq
    · next pf heq =>
      rw [hfind] at heq
      cases heq
      simp [hm]
  | cons c2 rest2 =>
    rw [searchLoop]
    split
    · next heq =>
      rw [hfind] at heq
      cases heq
    · next pf heq =>
      rw [hfind] at heq
      cases heq
      simp [hm]

/-! ## `matchAt` helpers -/

theorem matchAt_firstByte {s needle : List Nat} {j : Nat} (hne : needle ≠ [])
    (h : matchAt s needle j) : s.getD j 0 = needle.getD 0 0 := by
  obtain ⟨v, rest, rfl⟩ := List.exists_cons_of_ne_nil hne
  obtain ⟨h1, h2⟩ := h
  cases hd : s.drop j with
  | nil =>
    rw [hd] at h2
    cases h2
  | cons a t =>
    rw [hd, List.length_cons, List.take_succ_cons] at h2
    have ha : a = v := (List.cons.injEq _ _ _ _).mp h2 |>.1
    have : (s.drop j).getD 0 0 = a := by
      rw [hd]
      rfl
    rw [getD_drop, Nat.add_zero] at this
    rw [this, ha]
    rfl

theorem matchAt_single {s : List Nat} {j v : Nat} (hj : j < s.length)
    (hv : s.getD j 0 = v) : matchAt s [v] j := by
  refine ⟨by simp only [List.length_cons, List.length_nil]; omega, ?_⟩
  rw [List.drop_eq_getElem_cons hj]
  simp only [List.length_cons, List.length_nil, List.take_succ_cons, List.take_zero]
  rw [List.getD_eq_getElem?_getD, List.getElem?_eq_getElem hj] at hv
  simp_all

theorem matchAt_of_take_eq {s needle : List Nat} {j : Nat} (hne : needle ≠ [])
    (h : (s.drop j).take needle.length = needle) : matchAt s needle j := by
  refine ⟨?_, h⟩
  have hlen := congrArg List.length h
  simp only [List.length_take, List.length_drop] at hlen
  have h2 : needle.length ⊓ (s.length - j) ≤ s.length - j :=
    Nat.min_le_right needle.length (s.length - j)
  rw [hlen] at h2
  have h3 : 0 < needle.length := List.length_pos.mpr hne
  omega

/-- If the needle's first byte does not occur in the current chunk `c` on the
index interval `[lo, hi)`, then no match of the needle starts at any logical
position falling in that interval. -/
theorem no_match_in_gap {J : List Nat} {hd acc : Nat} {needle : List Nat}
    (hneedle : needle ≠ []) {c restFlat : List Nat}
    (hjoin : c ++ restFlat = J.drop acc) {lo hi : Nat}
    (hhi : hi ≤ c.length) (hhd : hd ≤ acc + lo)
    (hgap : ∀ idx, lo ≤ idx → idx < hi → c.getD idx 0 ≠ needle.getD 0 0) :
    ∀ j, acc + lo - hd ≤ j → j < acc + hi - hd → ¬ matchAt (J.drop hd) needle j := by
  intro j hj1 hj2 hmatch
  have hfb := matchAt_firstByte hneedle hmatch
  rw [getD_drop] at hfb
  have hidx1 : lo ≤ hd + j - acc := by omega
  have hidx2 : hd + j - acc < hi := by omega
  have hidx : hd + j = acc + (hd + j - acc) := by omega
  rw [hidx, ← getD_drop, ← hjoin] at hfb
  rw [List.getD_append _ _ _ _ (by omega)] at hfb
  exact hgap _ hidx1 hidx2 hfb

/-- Correctness of the `while (true)` search loop: starting from a state whose
chunk suffix covers the tail of the full byte sequence `J` from offset `acc`,
the loop returns exactly the first-match index (relative to `hd`) that the
specification-side search computes, or `-1`. -/
theorem searchLoop_spec (needle : List Nat) (hneedle : needle ≠ [])
    (J : List Nat) (hd : Nat) :
    ∀ (cs : List (List Nat)) (spc acc : Nat),
      cs ≠ [] →
      cs.flatten = J.drop acc →
      acc ≤ J.length →
      spc ≤ (cs.headD []).length →
      hd ≤ acc + spc →
      searchLoop needle (needle.getD 0 0) hd cs spc acc
        = .ok (intResult (specFind (J.drop hd) needle (acc + spc - hd))) := by
  refine searchLoop.induct needle (needle.getD 0 0) hd
    (motive := fun cs spc acc =>
      cs ≠ [] → cs.flatten = J.drop acc → acc ≤ J.length →
      spc ≤ (cs.headD []).length → hd ≤ acc + spc →
      searchLoop needle (needle.getD 0 0) hd cs spc acc
        = .ok (intResult (specFind (J.drop hd) needle (acc + spc - hd))))
    ?_ ?_ ?_ ?_ ?_
  · -- cs = [] : excluded by the hypothesis
    intro spc acc hne
    exact absurd rfl hne
  · -- cs = [c], first byte not found: the loop returns -1
    intro c spc acc hfind hne hjoin hacc hspc hhd
    rw [searchLoop_none_last hfind]
    simp only [List.flatten_cons, List.flatten_nil, List.append_nil] at hjoin
    simp only [List.headD_cons] at hspc
    have hlen : c.length = J.length - acc := by
      rw [← List.length_drop, ← hjoin]
    have hs : specFind (J.drop hd) needle (acc + spc - hd) = none := by
      apply specFind_none
      intro j hj hmatch
      by_cases hcase : j < acc + c.length - hd
      · have hjoin2 : c ++ [] = J.drop acc := by
          rw [List.append_nil]
          exact hjoin
        exact no_match_in_gap hneedle hjoin2 le_rfl hhd
          (fun idx h1 h2 => chunkIndexOf_none hfind idx h1 h2) j (by omega) hcase hmatch
      · obtain ⟨hb, -⟩ := hmatch
        rw [List.length_drop] at hb
        have hpos : 0 < needle.length := List.length_pos.mpr hneedle
        omega
    rw [hs]
    rfl
  · -- cs = c :: c2 :: rest2, first byte not found: move to the next chunk
    intro c spc acc hfind c2 rest2 ih hne hjoin hacc hspc hhd
    rw [searchLoop_none_step hfind]
    simp only [List.flatten_cons] at hjoin
    simp only [List.headD_cons] at hspc
    have hlen2 : acc + c.length ≤ J.length := by
      have hl := congrArg List.length hjoin
      simp only [List.length_append, List.length_drop] at hl
      omega
    have hjoin2 : (c2 :: rest2).flatten = J.drop (acc + c.length) := by
      rw [List.flatten_cons]
      have h3 := congrArg (List.drop c.length) hjoin
      rw [List.drop_left, List.drop_drop] at h3
      rw [h3]
    rw [ih (by simp) hjoin2 hlen2 (by simp) (by omega)]
    have hgapjoin : c ++ (c2 ++ rest2.flatten) = J.drop acc := hjoin
    have hgap := no_match_in_gap hneedle hgapjoin
      (le_refl c.length) hhd (fun idx h1 h2 => chunkIndexOf_none hfind idx h1 h2)
    have hcongr := specFind_congr_of_no_match (s := J.drop hd) (n := needle)
      (a := acc + spc - hd) (b := acc + c.length - hd) (by omega)
      (fun j h1 h2 => hgap j (by omega) (by omega))
    have e3 : acc + c.length + 0 - hd = acc + c.length - hd := by omega
    rw [e3, ← hcongr]
  · -- first byte found and the verification succeeded: return the index
    intro c rest spc acc posFound hfind m hm hne hjoin hacc hspc hhd
    have hm2 : (if 1 < needle.length then verifyFrom needle (c :: rest) posFound
        else true) = true := hm
    rw [searchLoop_found hfind hm2]
    simp only [List.flatten_cons] at hjoin
    simp only [List.headD_cons] at hspc
    obtain ⟨hple, hplt, hpgd, hpmin⟩ := chunkIndexOf_spec hfind
    have hlen2 : c.length + rest.flatten.length = J.length - acc := by
      have := congrArg List.length hjoin
      simp only [List.length_append, List.length_drop] at this
      omega
    have hmatch : matchAt (J.drop hd) needle (acc + posFound - hd) := by
      have hdropJ : (J.drop hd).drop (acc + posFound - hd) = J.drop (acc + posFound) := by
        rw [List.drop_drop]
        congr 1
        omega
      by_cases h1l : 1 < needle.length
      · rw [if_pos h1l] at hm2
        rw [verifyFrom_spec] at hm2
        rw [List.flatten_cons, hjoin, List.drop_drop] at hm2
        apply matchAt_of_take_eq hneedle
        rw [hdropJ]
        exact hm2
      · have hone : needle.length = 1 := by
          have : 0 < needle.length := List.length_pos.mpr hneedle
          omega
        obtain ⟨v, rfl⟩ := List.length_eq_one.mp hone
        apply matchAt_single
        · rw [List.length_drop]
          omega
        · rw [getD_drop]
          have e : hd + (acc + posFound - hd) = acc + posFound := by omega
          rw [e, ← getD_drop, ← hjoin]
          rw [List.getD_append _ _ _ _ hplt]
          exact hpgd
    have hgap := no_match_in_gap hneedle (show c ++ rest.flatten = J.drop acc from hjoin)
      (le_of_lt hplt) hhd (fun idx h1 h2 => hpmin idx h1 h2)
    have hcongr := specFind_congr_of_no_match (s := J.drop hd) (n := needle)
      (a := acc + spc - hd) (b := acc + posFound - hd) (by omega)
      (fun j h1 h2 => hgap j (by omega) (by omega))
    rw [hcongr, specFind_of_match hmatch]
    show _ = Except.ok (((acc + posFound - hd : Nat) : Int))
    congr 1
    omega
  · -- first byte found but the verification failed: retry past the candidate
    intro c rest spc acc posFound hfind m hm ih hne hjoin hacc hspc hhd
    have hm2 : (if 1 < needle.length then verifyFrom needle (c :: rest) posFound
        else true) = false := by
      cases hval : (if 1 < needle.length then verifyFrom needle (c :: rest) posFound
          else true) with
      | false => rfl
      | true => exact absurd hval hm
    rw [searchLoop_retry hfind hm2]
    simp only [List.flatten_cons] at hjoin
    simp only [List.headD_cons] at hspc
    obtain ⟨hple, hplt, hpgd, hpmin⟩ := chunkIndexOf_spec hfind
    have h1l : 1 < needle.length := by
      by_contra h
      rw [if_neg h] at hm2
      cases hm2
    rw [if_pos h1l] at hm2
    have hnomatch : ¬ matchAt (J.drop hd) needle (acc + posFound - hd) := by
      intro hmatch
      obtain ⟨-, htake⟩ := hmatch
      have hdropJ : (J.drop hd).drop (acc + posFound - hd) = J.drop (acc + posFound) := by
        rw [List.drop_drop]
        congr 1
        omega
      rw [hdropJ] at htake
      have hv : verifyFrom needle (c :: rest) posFound = true := by
        rw [verifyFrom_spec, List.flatten_cons, hjoin, List.drop_drop]
        exact htake
      rw [hv] at hm2
      cases hm2
    rw [ih (by simp) (by rw [List.flatten_cons]; exact hjoin) hacc
      (by simp only [List.headD_cons]; omega) (by omega)]
    have hgap := no_match_in_gap hneedle (show c ++ rest.flatten = J.drop acc from hjoin)
      (le_of_lt hplt) hhd (fun idx h1 h2 => hpmin idx h1 h2)
    have hcongr := specFind_congr_of_no_match (s := J.drop hd) (n := needle)
      (a := acc + spc - hd) (b := acc + posFound - hd) (by omega)
      (fun j h1 h2 => hgap j (by omega) (by omega))
    have hstep := specFind_succ_of_not_match hnomatch
    have e5 : acc + (posFound + 1) - hd = acc + posFound - hd + 1 := by omega
    rw [e5, ← hstep, ← hcongr]

/-! ## Buffer-level facts -/

theorem bytes_length (b : ByteBuffer) : b.bytes.length = b.length := by
  rw [ByteBuffer.bytes, ByteBuffer.length, List.length_drop, List.length_flatten]

/-- Normalized form of the invariant used by the seek lemmas. -/
theorem wf_norm {b : ByteBuffer} (hwf : WF b) :
    b.head = 0 ∨ b.head < (b.chunks.headD []).length := by
  rcases Nat.eq_zero_or_pos b.head with h | h
  · exact Or.inl h
  · exact Or.inr (hwf h).2

theorem head_le_flatten {b : ByteBuffer} (hwf : WF b) :
    b.head ≤ b.chunks.flatten.length := by
  rcases wf_norm hwf with h | h
  · omega
  · cases hc : b.chunks with
    | nil =>
      rw [hc] at h
      simp at h
    | cons c rest =>
      rw [hc] at h
      simp only [List.headD_cons] at h
      rw [List.flatten_cons, List.length_append]
      omega

theorem length_eq_flatten_sub {b : ByteBuffer} :
    b.length = b.chunks.flatten.length - b.head := by
  rw [ByteBuffer.length, List.length_flatten]

/-- General correctness of `indexOf` for a non-empty needle that fits in the
buffer and a search position strictly inside the buffer: the result is `ok`
and equals the specification-side first match (or `-1`). -/
theorem indexOf_ok (b : ByteBuffer) (hwf : WF b) (needle : List Nat)
    (hneedle : needle ≠ []) (hlen : needle.length ≤ b.length)
    (p : Int) (hp0 : 0 ≤ p) (hp : p < (b.length : Int)) :
    b.indexOf needle p = .ok (intResult (specFind b.bytes needle p.toNat)) := by
  have hlen0 : ¬ needle.length = 0 := by
    intro h
    exact hneedle (List.length_eq_zero.mp h)
  have hhead := head_le_flatten hwf
  have hL := length_eq_flatten_sub (b := b)
  have hpos : 0 < b.length := by
    have : 0 < needle.length := List.length_pos.mpr hneedle
    omega
  rw [ByteBuffer.indexOf, if_neg hlen0, if_neg (by omega)]
  by_cases hgt : p > 0
  · have hptn : p.toNat < b.length := by omega
    obtain ⟨k, hp2, hseek, hk, hnorm, hdrop, hsum⟩ :=
      seek_spec b.chunks b.head p.toNat (wf_norm hwf) (by omega)
    rw [if_pos hgt, hseek]
    dsimp only
    have hbytesdrop : (b.chunks.drop k).flatten.drop hp2 = b.bytes.drop p.toNat := by
      rw [hdrop, ByteBuffer.bytes, List.drop_drop]
    have hcs : b.chunks.drop k ≠ [] := by
      intro hnil
      have h1 := hbytesdrop
      rw [hnil] at h1
      have h2 := congrArg List.length h1
      simp only [List.flatten_nil, List.drop_nil, List.length_nil, List.length_drop,
        bytes_length] at h2
      omega
    rw [searchLoop_spec needle hneedle b.chunks.flatten b.head (b.chunks.drop k) hp2
      ((b.chunks.take k).map List.length).sum hcs
      (flatten_drop b.chunks k)
      (by have h1 := sum_take_le b.chunks k
          have h2 : (b.chunks.map List.length).sum = b.chunks.flatten.length :=
            (List.length_flatten b.chunks).symm
          omega)
      (by rcases hnorm with h | h
          · omega
          · omega)
      (by omega)]
    have harg : ((b.chunks.take k).map List.length).sum + hp2 - b.head = p.toNat := by
      omega
    rw [harg, ByteBuffer.bytes]
  · have hp0' : p = 0 := by omega
    rw [if_neg hgt]
    dsimp only
    have hcs : b.chunks ≠ [] := by
      intro hnil
      rw [hnil] at hL
      simp at hL
      omega
    rw [List.drop_zero, List.take_zero, List.map_nil, List.sum_nil]
    rw [searchLoop_spec needle hneedle b.chunks.flatten b.head b.chunks b.head 0 hcs
      (by rw [List.drop_zero]) (by omega)
      (by rcases wf_norm hwf with h | h
          · omega
          · omega)
      (by omega)]
    have harg : 0 + b.head - b.head = p.toNat := by omega
    rw [harg]
    rfl

theorem wf_of_norm {cs : List (List Nat)} {hp : Nat}
    (h : hp = 0 ∨ hp < (cs.headD []).length) : WF ⟨cs, hp⟩ := by
  intro hpos
  change 0 < hp at hpos
  rcases h with h | h
  · omega
  · constructor
    · show cs ≠ []
      intro hnil
      rw [hnil] at h
      simp at h
    · show hp < (cs.headD []).length
      exact h

/-- General success lemma for `pull`: for a well-formed buffer and
`x ≤ length`, `pull x` returns the first `x` logical bytes, and the new state
is the old one with `k` chunks dropped and the head moved, holds the remaining
logical bytes, has the right length, and is well-formed again. -/
theorem pull_ok {b : ByteBuffer} (hwf : WF b) {x : Nat} (hx : x ≤ b.length) :
    ∃ k hp2,
      seek b.chunks b.head x = some (k, hp2, b.bytes.take x) ∧
      b.pull (x : Int) = .ok (b.bytes.take x, ⟨b.chunks.drop k, hp2⟩) ∧
      (⟨b.chunks.drop k, hp2⟩ : ByteBuffer).bytes = b.bytes.drop x ∧
      (⟨b.chunks.drop k, hp2⟩ : ByteBuffer).length = b.length - x ∧
      WF ⟨b.chunks.drop k, hp2⟩ := by
  have hhead := head_le_flatten hwf
  have hL := length_eq_flatten_sub (b := b)
  obtain ⟨k, hp2, hseek, hk, hnorm, hdrop, hsum⟩ :=
    seek_spec b.chunks b.head x (wf_norm hwf) (by omega)
  have hbytes : (b.chunks.flatten.drop b.head).take x = b.bytes.take x := by
    rw [ByteBuffer.bytes]
  rw [hbytes] at hseek
  have hnewbytes : (⟨b.chunks.drop k, hp2⟩ : ByteBuffer).bytes = b.bytes.drop x := by
    rw [ByteBuffer.bytes, ByteBuffer.bytes]
    exact hdrop
  refine ⟨k, hp2, hseek, ?_, hnewbytes, ?_, wf_of_norm hnorm⟩
  · rw [ByteBuffer.pull, if_neg (by omega), if_neg (by omega), Int.toNat_natCast, hseek]
  · have h1 := bytes_length (⟨b.chunks.drop k, hp2⟩ : ByteBuffer)
    have h2 := bytes_length b
    rw [hnewbytes] at h1
    rw [List.length_drop] at h1
    omega

/-- General success lemma for `slice(0, x)`: it copies the first `x` logical
bytes without touching the state. -/
theorem slice_take {b : ByteBuffer} (hwf : WF b) {x : Nat} (hx : x ≤ b.length) :
    b.slice (some 0) (some (x : Int)) = .ok (b.bytes.take x) := by
  have hhead := head_le_flatten hwf
  have hL := length_eq_flatten_sub (b := b)
  obtain ⟨k, hp2, hseek, hk, hnorm, hdrop, hsum⟩ :=
    seek_spec b.chunks b.head x (wf_norm hwf) (by omega)
  rw [ByteBuffer.slice]
  dsimp only [Option.getD_some]
  rw [if_neg (by omega : ¬ ((x : Int) > (b.length : Int)))]
  rw [if_neg (by omega : ¬ ((0 : Int) < 0)), if_neg (by omega : ¬ ((x : Int) < 0))]
  have h0 : ((0 : Int)).toNat = 0 := rfl
  rw [h0, seek]
  dsimp only
  rw [if_neg (by omega : ¬ ((x : Int) - 0 < 0))]
  have hxx : ((x : Int) - 0).toNat = x := by omega
  rw [hxx, List.drop_zero, hseek]
  dsimp only
  rw [ByteBuffer.bytes]

/-- Two slice calls with the same effective start (and defaulted end) are
equal. -/
theorem slice_start_congr (b : ByteBuffer) (s1 s2 : Int)
    (h : (if s1 < 0 then max (s1 + (b.length : Int)) 0 else s1)
       = (if s2 < 0 then max (s2 + (b.length : Int)) 0 else s2)) :
    b.slice (some s1) none = b.slice (some s2) none := by
  rw [ByteBuffer.slice]
  dsimp only [Option.getD_some]
  rw [h]
  rw [ByteBuffer.slice]
  dsimp only [Option.getD_some]

theorem headD_length_le_flatten (cs : List (List Nat)) :
    (cs.headD []).length ≤ cs.flatten.length := by
  cases cs with
  | nil => simp
  | cons c rest =>
    simp only [List.headD_cons, List.flatten_cons, List.length_append]
    omega

theorem specFind_none_no_match {s needle : List Nat} :
    ∀ {d i j : Nat}, j - i = d → specFind s needle i = none → i ≤ j →
      ¬ matchAt s needle j := by
  intro d
  induction d with
  | zero =>
    intro i j hd h hij hm
    have hji : j = i := by omega
    subst hji
    rw [specFind_of_match hm] at h
    cases h
  | succ d ih =>
    intro i j hd h hij hm
    by_cases hmi : matchAt s needle i
    · rw [specFind_of_match hmi] at h
      cases h
    · refine ih (i := i + 1) (j := j) (by omega) ?_ (by omega) hm
      rw [← specFind_succ_of_not_match hmi]
      exact h

/-- `slice` written in terms of the effective start and end indices (these are
definitionally the source's prelude computations). -/
theorem slice_unfold (b : ByteBuffer) (start0 end0 : Option Int) :
    b.slice start0 end0 =
      match seek b.chunks b.head (effStart b.length start0).toNat with
      | none => .error "TypeError"
      | some (k, hp, _) =>
        if effEnd b.length end0 - effStart b.length start0 < 0 then .error "RangeError"
        else
          match seek (b.chunks.drop k) hp
              (effEnd b.length end0 - effStart b.length start0).toNat with
          | none => .error "TypeError"
          | some (_, _, out) => .ok out := rfl

theorem effStart_nonneg (L : Nat) (start0 : Option Int) : 0 ≤ effStart L start0 := by
  rw [effStart]
  split <;> omega

theorem effEnd_nonneg (L : Nat) (end0 : Option Int) : 0 ≤ effEnd L end0 := by
  rw [effEnd.eq_def]
  cases end0 with
  | none =>
    dsimp only
    split <;> omega
  | some e =>
    dsimp only
    split <;> split <;> omega

theorem effEnd_le (L : Nat) (end0 : Option Int) : effEnd L end0 ≤ (L : Int) := by
  rw [effEnd.eq_def]
  cases end0 with
  | none =>
    dsimp only
    split <;> omega
  | some e =>
    dsimp only
    split <;> split <;> omega

/-- General success lemma for `slice`: whenever the effective start does not
exceed the effective end, `slice` returns the corresponding window of the
logical bytes. -/
theorem slice_ok {b : ByteBuffer} (hwf : WF b) {start0 end0 : Option Int}
    (h : effStart b.length start0 ≤ effEnd b.length end0) :
    b.slice start0 end0 =
      .ok ((b.bytes.drop (effStart b.length start0).toNat).take
        ((effEnd b.length end0).toNat - (effStart b.length start0).toNat)) := by
  have hS0 := effStart_nonneg b.length start0
  have hE0 := effEnd_nonneg b.length end0
  have hEL := effEnd_le b.length end0
  have hhead := head_le_flatten hwf
  have hL := length_eq_flatten_sub (b := b)
  set S := effStart b.length start0 with hSdef
  set E := effEnd b.length end0 with hEdef
  clear_value S E
  have hSL : S.toNat ≤ b.length := by omega
  obtain ⟨k, hp2, hseek1, hk, hnorm, hdrop, hsum⟩ :=
    seek_spec b.chunks b.head S.toNat (wf_norm hwf) (by omega)
  have hlen2 : (b.chunks.drop k).flatten.length - hp2 = b.length - S.toNat := by
    have := congrArg List.length hdrop
    simp only [List.length_drop] at this
    omega
  have hple : hp2 ≤ (b.chunks.drop k).flatten.length := by
    have hh := headD_length_le_flatten (b.chunks.drop k)
    rcases hnorm with hz | hlt
    · omega
    · omega
  have hub : (E - S).toNat + hp2 ≤ (b.chunks.drop k).flatten.length := by omega
  obtain ⟨k2, hp3, hseek2, hk2, hnorm2, hdrop2, hsum2⟩ :=
    seek_spec (b.chunks.drop k) hp2 (E - S).toNat hnorm hub
  rw [slice_unfold, ← hSdef, ← hEdef, hseek1]
  dsimp only
  rw [if_neg (by omega), hseek2]
  dsimp only
  have hout : ((b.chunks.drop k).flatten.drop hp2).take (E - S).toNat
      = (b.bytes.drop S.toNat).take (E.toNat - S.toNat) := by
    rw [hdrop, ByteBuffer.bytes]
    congr 1
    omega
  rw [hout]

/-- For a non-empty needle, a non-positive search position behaves exactly
like position `0` (the source only seeks when `position > 0`). -/
theorem indexOf_nonpos (b : ByteBuffer) (needle : List Nat) (hne : needle ≠ [])
    (p : Int) (hp : p ≤ 0) :
    b.indexOf needle p = b.indexOf needle 0 := by
  have hlen0 : ¬ needle.length = 0 := fun h => hne (List.length_eq_zero.mp h)
  rw [ByteBuffer.indexOf]
  rw [if_neg hlen0]
  conv_rhs => rw [ByteBuffer.indexOf]
  rw [if_neg hlen0]
  by_cases hbig : needle.length > b.length
  · rw [if_pos hbig, if_pos hbig]
  · rw [if_neg hbig, if_neg hbig]
    rw [if_neg (by omega : ¬ p > 0), if_neg (by omega : ¬ (0 : Int) > 0)]

/-- Failure lemma for `seek`: on a normalized position, asking for more bytes
than remain in the buffer walks the loop past the last chunk, where the source
dereferences `this.chunks[pos.chunkNumber]` out of range (a `TypeError`). -/
theorem seek_none :
    ∀ (cs : List (List Nat)) (hp n : Nat),
      hp = 0 ∨ hp < (cs.headD []).length →
      cs.flatten.length < n + hp →
      seek cs hp n = none := by
  intro cs
  induction cs with
  | nil =>
    intro hp n hwf h
    have hhp : hp = 0 := by
      rcases hwf with h0 | h0
      · exact h0
      · simp at h0
    subst hhp
    simp only [List.flatten_nil, List.length_nil] at h
    cases n with
    | zero => omega
    | succ m => rw [seek]
  | cons c cs' ih =>
    intro hp n hwf h
    have hhp : hp ≤ c.length := by
      rcases hwf with h0 | h0
      · omega
      · simp only [List.headD_cons] at h0
        omega
    simp only [List.flatten_cons, List.length_append] at h
    cases n with
    | zero => omega
    | succ m =>
      have hlt : ¬ m + 1 < c.length - hp := by omega
      rw [seek, if_neg hlt]
      rw [ih 0 (m + 1 - (c.length - hp)) (Or.inl rfl) (by omega)]

/-! ## Claim theorems -/

/-- **C1** (amended: the search position must satisfy `fromPosition < length`;
as stated the claim fails — see the counterexample, where `fromPosition ≥
length` makes the code raise a `TypeError` instead of returning `-1`).
For every well-formed buffer, non-empty needle with `needle.length ≤ length`,
and `0 ≤ fromPosition < length`: `indexOf` returns the smallest logical index
`i ≥ fromPosition` such that the bytes at logical positions
`i .. i + needle.length - 1` equal the needle, and `-1` if no such `i`
exists.  The index is an index into `b.bytes`, i.e. it is relative to the
current head, independent of how many bytes were pulled previously. -/
theorem claim1_indexOf_first_match (b : ByteBuffer) (hwf : WF b)
    (needle : List Nat) (hne : needle ≠ []) (hlen : needle.length ≤ b.length)
    (p : Int) (hp0 : 0 ≤ p) (hp : p < (b.length : Int)) :
    (∃ i : Nat, p.toNat ≤ i ∧ matchAt b.bytes needle i ∧
      (∀ j, p.toNat ≤ j → j < i → ¬ matchAt b.bytes needle j) ∧
      b.indexOf needle p = .ok (i : Int)) ∨
    ((∀ i, p.toNat ≤ i → ¬ matchAt b.bytes needle i) ∧
      b.indexOf needle p = .ok (-1)) := by
  have h := indexOf_ok b hwf needle hne hlen p hp0 hp
  cases hfind : specFind b.bytes needle p.toNat with
  | some i =>
    left
    obtain ⟨h1, h2, h3⟩ := specFind_spec hfind
    refine ⟨i, h1, h2, h3, ?_⟩
    rw [h, hfind]
    rfl
  | none =>
    right
    refine ⟨?_, by rw [h, hfind]; rfl⟩
    intro i hi
    exact specFind_none_no_match rfl hfind hi

/-- **C2**: for every well-formed buffer and `0 ≤ x ≤ length`, `pull(x)`
returns the same bytes as `slice(0, x)` (the first `x` logical bytes), the
length decreases by exactly `x`, and the resulting state's logical bytes are
the old ones with the first `x` removed (so every subsequent `pull` / `slice`
/ `indexOf`, all functions of the state, observe the buffer as if the
consumed bytes never existed); `pull(0)` returns `[]` and leaves the state
unchanged.  On the error paths `pull` returns before the state is built, as
in the source, where both argument checks precede any mutation. -/
theorem claim2_pull_slice_consume (b : ByteBuffer) (hwf : WF b)
    (x : Nat) (hx : x ≤ b.length) :
    ∃ b2 : ByteBuffer,
      b.pull (x : Int) = .ok (b.bytes.take x, b2) ∧
      b.slice (some 0) (some (x : Int)) = .ok (b.bytes.take x) ∧
      b2.length = b.length - x ∧
      b2.bytes = b.bytes.drop x ∧
      WF b2 ∧
      (x = 0 → b.bytes.take x = [] ∧ b2 = b) := by
  obtain ⟨k, hp2, hseek, hpull, hbytes, hlen, hwf2⟩ := pull_ok hwf hx
  refine ⟨⟨b.chunks.drop k, hp2⟩, hpull, slice_take hwf hx, hlen, hbytes, hwf2, ?_⟩
  intro hx0
  subst hx0
  refine ⟨rfl, ?_⟩
  rw [seek] at hseek
  simp only [Option.some.injEq, Prod.mk.injEq] at hseek
  obtain ⟨hk0, hhp, -⟩ := hseek
  rw [← hk0, ← hhp, List.drop_zero]

/-- **C4** (amended: the empty result is only produced when the effective
start *equals* the effective end; when the effective start is strictly
greater, `slice` raises instead of returning an empty array — see the
counterexample.  Which error depends on where the unguarded computation
fails first: for an effective start at most the buffer length, the first
seek succeeds and `new Uint8Array(end − start)` receives a negative length,
a `RangeError`; for an effective start beyond the buffer length, the first
seek already walks past the chunk array, a `TypeError`, before
`new Uint8Array` runs).  For every well-formed buffer and all arguments:
if the effective (defaulted, clamped, negative-interpreted) start equals the
effective end, `slice` returns an empty byte sequence without error, and if
the effective start strictly exceeds the effective end, `slice` raises the
error just described. -/
theorem claim4_slice_empty_when_start_eq_end (b : ByteBuffer) (hwf : WF b)
    (start0 end0 : Option Int) :
    (effStart b.length start0 = effEnd b.length end0 →
      b.slice start0 end0 = .ok []) ∧
    (effEnd b.length end0 < effStart b.length start0 →
      (effStart b.length start0 ≤ (b.length : Int) →
        b.slice start0 end0 = .error "RangeError") ∧
      ((b.length : Int) < effStart b.length start0 →
        b.slice start0 end0 = .error "TypeError")) := by
  have hhead := head_le_flatten hwf
  have hL := length_eq_flatten_sub (b := b)
  have hS0 := effStart_nonneg b.length start0
  constructor
  · intro h
    rw [slice_ok hwf (le_of_eq h), h]
    simp
  · intro hlt
    constructor
    · intro hSL
      obtain ⟨k, hp2, hseek1, -, -, -, -⟩ :=
        seek_spec b.chunks b.head (effStart b.length start0).toNat (wf_norm hwf)
          (by omega)
      rw [slice_unfold, hseek1]
      dsimp only
      rw [if_pos (by omega)]
    · intro hSL
      rw [slice_unfold,
        seek_none b.chunks b.head (effStart b.length start0).toNat (wf_norm hwf)
          (by omega)]

/-- **C5**: `pull(x)` raises exactly for `x < 0` (with the "less than 0"
message) and for `x > length` (with the "greater than current length"
message), and succeeds otherwise.  In this model the error branches return
before any new state is computed, mirroring the source, where both checks
precede the seek and the chunk-shift bookkeeping, so a failing `pull` leaves
`chunks` and `head` untouched. -/
theorem claim5_pull_error_iff (b : ByteBuffer) (hwf : WF b) (x : Int) :
    (b.pull x = .error "ByteBuffer#pull(): length cannot be less than 0." ↔ x < 0) ∧
    (b.pull x
        = .error "ByteBuffer#pull(): length cannot be greater than current length of buffer."
      ↔ (0 ≤ x ∧ (b.length : Int) < x)) ∧
    ((∃ e, b.pull x = .error e) ↔ (x < 0 ∨ (b.length : Int) < x)) := by
  have e1 : x < 0 → b.pull x = .error "ByteBuffer#pull(): length cannot be less than 0." :=
    fun h => by rw [ByteBuffer.pull, if_pos h]
  have e2 : ¬ x < 0 → (b.length : Int) < x →
      b.pull x
        = .error "ByteBuffer#pull(): length cannot be greater than current length of buffer." :=
    fun h1 h2 => by rw [ByteBuffer.pull, if_neg h1, if_pos (by omega)]
  have e3 : ¬ x < 0 → ¬ (b.length : Int) < x → ∃ out b2, b.pull x = .ok (out, b2) := by
    intro h1 h2
    obtain ⟨k, hp2, hseek, hpull, -, -, -⟩ := pull_ok hwf (x := x.toNat) (by omega)
    rw [Int.toNat_of_nonneg (by omega)] at hpull
    exact ⟨_, _, hpull⟩
  by_cases h1 : x < 0
  · refine ⟨⟨fun _ => h1, fun _ => e1 h1⟩, ⟨fun h => ?_, fun h => by omega⟩,
      ⟨fun _ => Or.inl h1, fun _ => ⟨_, e1 h1⟩⟩⟩
    rw [e1 h1] at h
    simp at h
  · by_cases h2 : (b.length : Int) < x
    · refine ⟨⟨fun h => ?_, fun h => absurd h h1⟩,
        ⟨fun _ => ⟨by omega, h2⟩, fun _ => e2 h1 h2⟩,
        ⟨fun _ => Or.inr h2, fun _ => ⟨_, e2 h1 h2⟩⟩⟩
      rw [e2 h1 h2] at h
      simp at h
    · obtain ⟨out, b2, hok⟩ := e3 h1 h2
      refine ⟨⟨fun h => ?_, fun h => absurd h h1⟩,
        ⟨fun h => ?_, fun h => by omega⟩,
        ⟨fun ⟨e, he⟩ => ?_, fun h => by omega⟩⟩
      · rw [hok] at h
        cases h
      · rw [hok] at h
        cases h
      · rw [hok] at he
        cases he

/-- **C6**: pulling `a` bytes and then `c` bytes (with `a + c ≤ length`) from
a well-formed buffer yields two arrays whose concatenation equals the single
`pull(a + c)` on the same starting buffer, and both runs end in the same
state (chunk list and head are equal, not merely equivalent). -/
theorem claim6_pull_splitting (b : ByteBuffer) (hwf : WF b) (a c : Nat)
    (h : a + c ≤ b.length) :
    ∃ r1 b1 r2 b2 r12 b12,
      b.pull (a : Int) = .ok (r1, b1) ∧
      b1.pull (c : Int) = .ok (r2, b2) ∧
      b.pull ((a : Int) + (c : Int)) = .ok (r12, b12) ∧
      r1 ++ r2 = r12 ∧ b2 = b12 := by
  obtain ⟨k1, hp1, hseek1, hpull1, hbytes1, hlen1, hwf1⟩ := pull_ok hwf (x := a) (by omega)
  obtain ⟨k2, hp2, hseek2, hpull2, hbytes2, hlen2, hwf2⟩ :=
    pull_ok hwf1 (x := c) (by rw [hlen1]; omega)
  obtain ⟨k3, hp3, hseek3, hpull3, hbytes3, hlen3, hwf3⟩ := pull_ok hwf (x := a + c) (by omega)
  have hadd := seek_add b.chunks b.head a c hseek1 hseek2
  rw [hadd] at hseek3
  simp only [Option.some.injEq, Prod.mk.injEq] at hseek3
  obtain ⟨hkk, hpp, hout⟩ := hseek3
  refine ⟨b.bytes.take a, ⟨b.chunks.drop k1, hp1⟩,
    (⟨b.chunks.drop k1, hp1⟩ : ByteBuffer).bytes.take c, ⟨(b.chunks.drop k1).drop k2, hp2⟩,
    b.bytes.take (a + c), ⟨b.chunks.drop k3, hp3⟩, hpull1, hpull2, ?_, hout, ?_⟩
  · rw [show (a : Int) + (c : Int) = ((a + c : Nat) : Int) by push_cast; ring]
    exact hpull3
  · show (⟨(b.chunks.drop k1).drop k2, hp2⟩ : ByteBuffer) = ⟨b.chunks.drop k3, hp3⟩
    rw [List.drop_drop, hkk, hpp]

/-- **C7**: for every buffer (no invariant needed) and every `k > 0`,
`slice(-k)` equals `slice(max(length − k, 0))`, and for `k > length` it
equals `slice(0)`: a negative start is interpreted as `start + length`
clamped below at `0`. -/
theorem claim7_slice_negative_index (b : ByteBuffer) (k : Int) (hk : 0 < k) :
    b.slice (some (-k)) none = b.slice (some (max ((b.length : Int) - k) 0)) none ∧
    ((b.length : Int) < k → b.slice (some (-k)) none = b.slice (some 0) none) := by
  constructor
  · apply slice_start_congr
    rw [if_pos (by omega), if_neg (by omega)]
    omega
  · intro hkL
    apply slice_start_congr
    rw [if_pos (by omega), if_neg (by omega)]
    omega

/-- **C8**: `indexOf` with an empty needle returns `min(p, length)` for every
`p ≥ 0`, without mutating the buffer (in this model `indexOf` is a pure
function of the state, as in the source, which only reads `this`). -/
theorem claim8_indexOf_empty_needle (b : ByteBuffer) (p : Int) (hp : 0 ≤ p) :
    b.indexOf [] p = .ok (min p (b.length : Int)) := by
  rw [ByteBuffer.indexOf, if_pos (show ([] : List Nat).length = 0 from rfl)]

/-- **C9**: in every state reachable by construction, `append`, and
(successful) `pull` — `slice` and `indexOf` do not mutate — the invariant
holds: `0 ≤ head`, and if `head > 0` then the chunk list is non-empty and
`head < chunks[0].length`.  In particular a state with `head` equal to the
first chunk's length never persists: `seek` normalizes an exactly-consumed
chunk to offset `0` of the next one, and `pull` commits that normalized
position. -/
theorem claim9_head_invariant (b : ByteBuffer) (hr : Reachable b) :
    0 ≤ b.head ∧ WF b := by
  refine ⟨Nat.zero_le _, ?_⟩
  induction hr with
  | init chunks =>
    intro h
    simp at h
  | append b0 new hr0 ih =>
    intro hpos
    change 0 < b0.head at hpos
    obtain ⟨hne, hlt⟩ := ih hpos
    constructor
    · show b0.chunks ++ new ≠ []
      intro hnil
      exact hne (List.append_eq_nil.mp hnil).1
    · show b0.head < ((b0.chunks ++ new).headD []).length
      cases hc : b0.chunks with
      | nil => exact absurd hc hne
      | cons ch rest =>
        rw [hc] at hlt
        simp only [List.headD_cons] at hlt
        simp only [List.cons_append, List.headD_cons]
        exact hlt
  | pull b0 x out b2 hr0 hpk ih =>
    rw [ByteBuffer.pull] at hpk
    by_cases h1 : x < 0
    · rw [if_pos h1] at hpk
      cases hpk
    · rw [if_neg h1] at hpk
      by_cases h2 : x > (b0.length : Int)
      · rw [if_pos h2] at hpk
        cases hpk
      · rw [if_neg h2] at hpk
        have hhead := head_le_flatten ih
        have hL := length_eq_flatten_sub (b := b0)
        obtain ⟨k, hp2, hseek, hk, hnorm, hdrop, hsum⟩ :=
          seek_spec b0.chunks b0.head x.toNat (wf_norm ih) (by omega)
        rw [hseek] at hpk
        dsimp only at hpk
        simp only [Except.ok.injEq, Prod.mk.injEq] at hpk
        obtain ⟨-, hb2⟩ := hpk
        rw [← hb2]
        exact wf_of_norm hnorm

/-- **C10**: for a non-empty needle, a negative search position gives the same
result as searching from position `0` — the source performs the position seek
only when `position > 0`, so every non-positive position starts the search at
the head. -/
theorem claim10_indexOf_negative_position (b : ByteBuffer) (needle : List Nat)
    (hne : needle ≠ []) (p : Int) (hp : p < 0) :
    b.indexOf needle p = b.indexOf needle 0 :=
  indexOf_nonpos b needle hne p (le_of_lt hp)

/-! ## Counterexamples and witnesses -/

/-- **C1, counterexample to the claim as stated**: buffer `[[65]]` (length 1),
needle `[65]`, `fromPosition = 1 ≥ 0`.  The claim demands the result `-1`
(there is no occurrence at an index `≥ 1`), but the code seeks to the end
sentinel and then reads `this.chunks[1]`, which is undefined, raising a
`TypeError` instead of returning. -/
theorem claim1_counterexample :
    (ByteBuffer.mk [[65]] 0).indexOf [65] 1 = .error "TypeError" := by
  rw [ByteBuffer.indexOf]
  simp only [ByteBuffer.length, List.map_cons, List.map_nil, List.length_cons,
    List.length_nil, List.sum_cons, List.sum_nil]
  norm_num
  rw [seek]
  norm_num [seek]
  rw [searchLoop]

/-- **C1 witness**: the amended theorem applied to buffer `[[65,66,67]]`,
needle `[66]`, position `0`. -/
theorem claim1_witness :
    (∃ i : Nat, (0 : Int).toNat ≤ i ∧
      matchAt (ByteBuffer.mk [[65, 66, 67]] 0).bytes [66] i ∧
      (∀ j, (0 : Int).toNat ≤ j → j < i →
        ¬ matchAt (ByteBuffer.mk [[65, 66, 67]] 0).bytes [66] j) ∧
      (ByteBuffer.mk [[65, 66, 67]] 0).indexOf [66] 0 = .ok (i : Int)) ∨
    ((∀ i, (0 : Int).toNat ≤ i → ¬ matchAt (ByteBuffer.mk [[65, 66, 67]] 0).bytes [66] i) ∧
      (ByteBuffer.mk [[65, 66, 67]] 0).indexOf [66] 0 = .ok (-1)) :=
  claim1_indexOf_first_match ⟨[[65, 66, 67]], 0⟩ (fun h => absurd h (by decide)) [66]
    (by decide) (by decide) 0 (by decide) (by decide)

/-- **C2 witness**: the theorem applied to buffer `[[65,66],[67]]` and
`x = 2`. -/
theorem claim2_witness :
    ∃ b2 : ByteBuffer,
      (ByteBuffer.mk [[65, 66], [67]] 0).pull ((2 : Nat) : Int) =
        .ok ((ByteBuffer.mk [[65, 66], [67]] 0).bytes.take 2, b2) ∧
      (ByteBuffer.mk [[65, 66], [67]] 0).slice (some 0) (some ((2 : Nat) : Int)) =
        .ok ((ByteBuffer.mk [[65, 66], [67]] 0).bytes.take 2) ∧
      b2.length = (ByteBuffer.mk [[65, 66], [67]] 0).length - 2 ∧
      b2.bytes = (ByteBuffer.mk [[65, 66], [67]] 0).bytes.drop 2 ∧
      WF b2 ∧
      (2 = 0 → (ByteBuffer.mk [[65, 66], [67]] 0).bytes.take 2 = [] ∧
        b2 = ByteBuffer.mk [[65, 66], [67]] 0) :=
  claim2_pull_slice_consume ⟨[[65, 66], [67]], 0⟩ (fun h => absurd h (by decide)) 2
    (by decide)

/-- **C4, counterexample to the claim as stated**: on buffer `[[65,66,67,68]]`
(length 4), `slice(3, 1)` has effective start `3 > 1` = effective end; the
claim demands an empty result, but the code computes `new Uint8Array(1 - 3)`
and raises a `RangeError`. -/
theorem claim4_counterexample :
    (ByteBuffer.mk [[65, 66, 67, 68]] 0).slice (some 3) (some 1) = .error "RangeError" := by
  rw [ByteBuffer.slice]
  norm_num [ByteBuffer.length, seek]

/-- **C4 witness**: the amended theorem applied to buffer `[[65,66]]` with
arguments `start = end = 1`. -/
theorem claim4_witness :
    (effStart (ByteBuffer.mk [[65, 66]] 0).length (some 1)
        = effEnd (ByteBuffer.mk [[65, 66]] 0).length (some 1) →
      (ByteBuffer.mk [[65, 66]] 0).slice (some 1) (some 1) = .ok []) ∧
    (effEnd (ByteBuffer.mk [[65, 66]] 0).length (some 1)
        < effStart (ByteBuffer.mk [[65, 66]] 0).length (some 1) →
      (effStart (ByteBuffer.mk [[65, 66]] 0).length (some 1)
          ≤ ((ByteBuffer.mk [[65, 66]] 0).length : Int) →
        (ByteBuffer.mk [[65, 66]] 0).slice (some 1) (some 1) = .error "RangeError") ∧
      (((ByteBuffer.mk [[65, 66]] 0).length : Int)
          < effStart (ByteBuffer.mk [[65, 66]] 0).length (some 1) →
        (ByteBuffer.mk [[65, 66]] 0).slice (some 1) (some 1) = .error "TypeError")) :=
  claim4_slice_empty_when_start_eq_end ⟨[[65, 66]], 0⟩ (fun h => absurd h (by decide))
    (some 1) (some 1)

/-- **C5 witness**: the theorem applied to buffer `[[65]]` and `x = -1`. -/
theorem claim5_witness :
    ((ByteBuffer.mk [[65]] 0).pull (-1)
        = .error "ByteBuffer#pull(): length cannot be less than 0." ↔ (-1 : Int) < 0) ∧
    ((ByteBuffer.mk [[65]] 0).pull (-1)
        = .error "ByteBuffer#pull(): length cannot be greater than current length of buffer."
      ↔ ((0 : Int) ≤ -1 ∧ ((ByteBuffer.mk [[65]] 0).length : Int) < -1)) ∧
    ((∃ e, (ByteBuffer.mk [[65]] 0).pull (-1) = .error e)
      ↔ ((-1 : Int) < 0 ∨ ((ByteBuffer.mk [[65]] 0).length : Int) < -1)) :=
  claim5_pull_error_iff ⟨[[65]], 0⟩ (fun h => absurd h (by decide)) (-1)

/-- **C6 witness**: the theorem applied to buffer `[[65,66,67],[68]]` with
`a = 2`, `c = 1`. -/
theorem claim6_witness :
    ∃ r1 b1 r2 b2 r12 b12,
      (ByteBuffer.mk [[65, 66, 67], [68]] 0).pull ((2 : Nat) : Int) = .ok (r1, b1) ∧
      b1.pull ((1 : Nat) : Int) = .ok (r2, b2) ∧
      (ByteBuffer.mk [[65, 66, 67], [68]] 0).pull (((2 : Nat) : Int) + ((1 : Nat) : Int))
        = .ok (r12, b12) ∧
      r1 ++ r2 = r12 ∧ b2 = b12 :=
  claim6_pull_splitting ⟨[[65, 66, 67], [68]], 0⟩ (fun h => absurd h (by decide)) 2 1
    (by decide)

/-- **C7 witness**: the theorem applied to buffer `[[65,66]]` and `k = 1`. -/
theorem claim7_witness :
    (ByteBuffer.mk [[65, 66]] 0).slice (some (-1)) none
      = (ByteBuffer.mk [[65, 66]] 0).slice
          (some (max (((ByteBuffer.mk [[65, 66]] 0).length : Int) - 1) 0)) none ∧
    (((ByteBuffer.mk [[65, 66]] 0).length : Int) < 1 →
      (ByteBuffer.mk [[65, 66]] 0).slice (some (-1)) none
        = (ByteBuffer.mk [[65, 66]] 0).slice (some 0) none) :=
  claim7_slice_negative_index ⟨[[65, 66]], 0⟩ 1 (by decide)

/-- **C8 witness**: the theorem applied to buffer `[[65]]` and `p = 1`. -/
theorem claim8_witness :
    (ByteBuffer.mk [[65]] 0).indexOf [] 1
      = .ok (min 1 (((ByteBuffer.mk [[65]] 0).length : Int))) :=
  claim8_indexOf_empty_needle ⟨[[65]], 0⟩ 1 (by decide)

/-- **C9 witness**: the invariant theorem applied to the freshly constructed
buffer `[[1,2]]`. -/
theorem claim9_witness :
    0 ≤ (ByteBuffer.mk [[1, 2]] 0).head ∧ WF (ByteBuffer.mk [[1, 2]] 0) :=
  claim9_head_invariant ⟨[[1, 2]], 0⟩ (Reachable.init [[1, 2]])

/-- **C10 witness**: the theorem applied to buffer `[[65]]`, needle `[65]`,
position `-2`. -/
theorem claim10_witness :
    (ByteBuffer.mk [[65]] 0).indexOf [65] (-2) = (ByteBuffer.mk [[65]] 0).indexOf [65] 0 :=
  claim10_indexOf_negative_position ⟨[[65]], 0⟩ [65] (by decide) (-2) (by decide)

end ByteBufferSpec
